import Mathlib

/-!
Shallow embedding of the `spill` ring buffer (crate `spill-ring-core`):
`SpillRing` (src/ring.rs), the sink event model (src/sink.rs), and the
MPSC layer (src/mpsc.rs).  The Rust `usize` counters `head`/`tail` use
wrapping arithmetic; they are modelled as `Nat` with explicit reduction
modulo `2 ^ 64`.  Uninitialised slots (`MaybeUninit`) are modelled with
`Option`.  A sink is modelled by the ordered list of items the ring hands
to it (`push`/`flush` return the emitted items); sink-level effects such
as the destructor's final `sink.flush()` are recorded as `SinkEvent`s.
-/

namespace Spill

/-- Width of `usize` (64-bit platform): wrapping arithmetic is mod `W`. -/
def W : Nat := 2 ^ 64

/-- Rust `usize::wrapping_add` for operands below `W`. -/
def wadd (a b : Nat) : Nat := (a + b) % W

/-- Rust `usize::wrapping_sub` for operands below `W`:
`a.wrapping_sub(b) = (a + (W - b)) % W`. -/
def wsub (a b : Nat) : Nat := (a + (W - b)) % W

/-- `SpillRing<T, N, S>` from src/ring.rs: a fixed array of `N` slots
(`MaybeUninit<T>`, here `Option T`), a `head` and a `tail` counter.
The sink is not part of the state; items sent to it are returned by the
operations instead. -/
structure SpillRing (T : Type) where
  cap : Nat
  buffer : Nat → Option T
  head : Nat
  tail : Nat

namespace SpillRing

/-- `SpillRing::new` / `with_sink`: all slots uninitialised, `head = tail = 0`.
(The `const` assertions `N > 0` and `N.is_power_of_two()` become the
hypothesis `CapOK` on the theorems.) -/
def new (T : Type) (cap : Nat) : SpillRing T :=
  ⟨cap, fun _ => none, 0, 0⟩

/-- `SpillRing::push`: read `tail` and `head`, compute `len = tail - head`
(wrapping); if `len >= N` read the slot at `head % N` (the evicted item,
sent to the sink) and advance `head`; then write the item at `tail % N`
and advance `tail`.  Returns the new state and the item sent to the sink,
if any. -/
def push (r : SpillRing T) (item : T) : SpillRing T × Option T :=
  let tail := r.tail
  let head := r.head
  let len := wsub tail head
  if r.cap ≤ len then
    let evicted := r.buffer (head % r.cap)
    (⟨r.cap, fun j => if j = tail % r.cap then some item else r.buffer j,
      wadd head 1, wadd tail 1⟩, evicted)
  else
    (⟨r.cap, fun j => if j = tail % r.cap then some item else r.buffer j,
      head, wadd tail 1⟩, none)

/-- `SpillRing::pop`: if `head == tail` return `None`; otherwise read the
slot at `head % N`, advance `head`, and return the item. -/
def pop (r : SpillRing T) : SpillRing T × Option T :=
  if r.head = r.tail then (r, none)
  else (⟨r.cap, r.buffer, wadd r.head 1, r.tail⟩, r.buffer (r.head % r.cap))

/-- `SpillRing::peek`: the slot at `head % N`, without removing it. -/
def peek (r : SpillRing T) : Option T :=
  if r.head = r.tail then none else r.buffer (r.head % r.cap)

/-- `SpillRing::len`: `tail.wrapping_sub(head)`. -/
def len (r : SpillRing T) : Nat := wsub r.tail r.head

/-- `SpillRing::is_empty`: `head == tail`. -/
def isEmpty (r : SpillRing T) : Bool := r.head == r.tail

/-- `SpillRing::is_full`: `tail.wrapping_sub(head) >= N`. -/
def isFull (r : SpillRing T) : Bool := decide (r.cap ≤ wsub r.tail r.head)

/-- `RingProducer::try_push` for `SpillRing`: if `tail - head >= N`
return `Err(item)` (modelled as `some item`) leaving the state untouched;
otherwise write at `tail % N` and advance `tail`.  Never touches the sink. -/
def tryPush (r : SpillRing T) (item : T) : SpillRing T × Option T :=
  if r.cap ≤ wsub r.tail r.head then (r, some item)
  else
    (⟨r.cap, fun j => if j = r.tail % r.cap then some item else r.buffer j,
      r.head, wadd r.tail 1⟩, none)

/-- The `while let Some(item) = self.pop()` loop shared by
`flush_unchecked` and `clear_drop`, with explicit fuel; the callers pass
`len` as fuel, which suffices to reach the `pop() == None` exit. -/
def popLoop : Nat → SpillRing T → SpillRing T × List T
  | 0, r => (r, [])
  | Nat.succ fuel, r =>
    match (pop r).2 with
    | none => ((pop r).1, [])
    | some x =>
      let rest := popLoop fuel (pop r).1
      (rest.1, x :: rest.2)

/-- `SpillRing::flush` (via `flush_unchecked`): pop every item and send it
to the sink; the returned list is the sequence sent, its length the count
returned. -/
def flush (r : SpillRing T) : SpillRing T × List T := popLoop r.len r

/-- `SpillRing::clear_drop`: `while self.pop().is_some() {}` — empties the
ring without sending anything to the sink. -/
def clearDrop (r : SpillRing T) : SpillRing T := (popLoop r.len r).1

/-- An observable effect on a sink: either `send(item)` or `flush()`. -/
inductive SinkEvent (T : Type) where
  | send (item : T)
  | flushEv
  deriving DecidableEq

/-- `Drop for SpillRing` (src/ring.rs): `self.flush()` then
`self.sink.get_mut().flush()` — as the event trace the sink observes. -/
def dropRing (r : SpillRing T) : List (SinkEvent T) :=
  ((flush r).2.map SinkEvent.send) ++ [SinkEvent.flushEv]

/-- Modelled from the spec: `SpillRing::drain` lives in the crate's
`iter.rs`, which is not part of the sources here; the spec says it
"removes and yields every live element in order", i.e. the same pop loop
as `flush_unchecked`, yielding instead of sending. -/
def drain (r : SpillRing T) : SpillRing T × List T := popLoop r.len r

end SpillRing

open SpillRing

/-- Push a whole list of items (in order) into a ring, collecting the items
the ring sends to its sink, in order.  (Matches a straight-line sequence of
`SpillRing::push` calls.) -/
def pushAll (r : SpillRing T) (xs : List T) : SpillRing T × List T :=
  match xs with
  | [] => (r, [])
  | x :: rest =>
    let p := push r x
    let q := pushAll p.1 rest
    (q.1, p.2.toList ++ q.2)

/-- `Producer<T, N, S>` from src/mpsc.rs: wraps one `SpillRing`. -/
structure Producer (T : Type) where
  ring : SpillRing T

/-- `Consumer<T, N, S>` from src/mpsc.rs: a `Vec` of collected rings. -/
structure Consumer (T : Type) where
  rings : List (SpillRing T)

namespace Consumer

/-- `Consumer::new`: empty ring list. -/
def new (T : Type) : Consumer T := ⟨[]⟩

/-- `Consumer::add_ring`: `self.rings.push(ring)` (appends at the end). -/
def addRing (c : Consumer T) (r : SpillRing T) : Consumer T :=
  ⟨c.rings ++ [r]⟩

/-- `Consumer::num_producers`: `self.rings.len()`. -/
def numProducers (c : Consumer T) : Nat := c.rings.length

/-- `Consumer::drain`: `for ring in &mut self.rings { sink.send_all(ring.drain()) }`
then `sink.flush()`.  `send_all`'s default implementation (src/spout
`traits.rs`) calls `send` per item, so the target sink observes one `send`
event per drained item, rings in insertion order, then a single `flush`. -/
def drainC (c : Consumer T) : Consumer T × List (SinkEvent T) :=
  (⟨c.rings.map (fun r => (drain r).1)⟩,
   ((c.rings.map (fun r => (drain r).2)).flatten.map SinkEvent.send)
     ++ [SinkEvent.flushEv])

end Consumer

/-- `collect_producers` from src/mpsc.rs: `for producer in producers {
consumer.add_ring(producer.into_ring()) }`. -/
def collectProducers (ps : List (Producer T)) (c : Consumer T) : Consumer T :=
  ps.foldl (fun acc p => acc.addRing p.ring) c

/-- `Drop` of a `Producer` runs the `Drop` of its `SpillRing` field: the
event trace observed by the producer's own attached sink. -/
def dropProducer (p : Producer T) : List (SinkEvent T) :=
  dropRing p.ring

/-- `ProducerSink<S, F>` from src/sink.rs: a lazily-created inner sink
(`Option`) and this producer's id.  The shared `next_id` counter (an
`Arc<AtomicUsize>` starting at 0) is threaded explicitly through `clone`. -/
structure ProducerSink (σ : Type) where
  inner : Option σ
  producer_id : Nat

namespace ProducerSink

/-- `ProducerSink::new`: `inner = None`, `producer_id = 0`, and the shared
`next_id` counter (`AtomicUsize::new(0)`) returned alongside. -/
def new (σ : Type) : ProducerSink σ × Nat := (⟨none, 0⟩, 0)

/-- `Clone for ProducerSink`: `id = next_id.fetch_add(1, Relaxed)` — the
`AtomicUsize` returns the old counter value and stores the old value plus
one, wrapping mod `W = 2 ^ 64`; the clone starts with `inner = None` and
`producer_id = id`. -/
def cloneSink (next_id : Nat) : ProducerSink σ × Nat :=
  (⟨none, next_id⟩, wadd next_id 1)

/-- `Sink::send for ProducerSink`: `ensure_inner()` (construct via the
factory on first send) then `inner.send(item)`. -/
def sendSink (factory : Nat → σ) (isend : σ → T → σ)
    (s : ProducerSink σ) (item : T) : ProducerSink σ :=
  match s.inner with
  | none => ⟨some (isend (factory s.producer_id) item), s.producer_id⟩
  | some st => ⟨some (isend st item), s.producer_id⟩

/-- `Sink::flush for ProducerSink`: flush the inner sink only if it was
initialised; the `Bool` records whether the inner flush was invoked. -/
def flushSink (iflush : σ → σ) (s : ProducerSink σ) : ProducerSink σ × Bool :=
  match s.inner with
  | none => (s, false)
  | some st => (⟨some (iflush st), s.producer_id⟩, true)

/-- Clone `n` times in a row from the shared counter, as
`producer_sink_assigns_unique_ids` does; returns the clones' ids in order. -/
def cloneIds (σ : Type) : Nat → Nat → List Nat
  | 0, _ => []
  | Nat.succ n, ctr =>
    let c := @cloneSink σ ctr
    c.1.producer_id :: cloneIds σ n c.2

end ProducerSink

/-! ### Abstraction: the live window of a ring as a FIFO list -/

/-- Constraints the construction enforces on the capacity `N`: the `const`
assertions require `0 < N` and `N` a power of two, and `N` is a Rust array
length, hence below `2 ^ 64`; every such power of two divides `W = 2 ^ 64`. -/
def CapOK (cap : Nat) : Prop := 0 < cap ∧ cap ∣ W ∧ cap < W

/-- The ring `r` represents the FIFO queue `q` (oldest first): for some
unbounded ghost counter `H`, `head` is `H` reduced mod `W`, `tail` is
`H + q.length` reduced mod `W`, the length fits the capacity, and slot
`(H + i) % cap` holds the `i`-th element of `q`. -/
def Abs (r : SpillRing T) (q : List T) : Prop :=
  ∃ H, r.head = H % W ∧ r.tail = (H + q.length) % W ∧ q.length ≤ r.cap ∧
    ∀ i : Fin q.length, r.buffer ((H + i.val) % r.cap) = some (q.get i)

theorem W_pos : 0 < W := by
  unfold W; positivity

/-- Wrapping subtraction recovers the window length: for `L < W`,
`((H + L) % W).wrapping_sub(H % W) = L`. -/
theorem wsub_window (H L : Nat) (hL : L < W) :
    wsub ((H + L) % W) (H % W) = L := by
  unfold wsub
  rw [Nat.mod_add_mod]
  have hm : H % W < W := Nat.mod_lt H W_pos
  have hdm : W * (H / W) + H % W = H := Nat.div_add_mod H W
  have hexp : W * (H / W + 1) = W * (H / W) + W := by ring
  have h2 : H + L + (W - H % W) = W * (H / W + 1) + L := by omega
  rw [h2, Nat.mul_add_mod, Nat.mod_eq_of_lt hL]

/-- Wrapping increment commutes with the ghost counter. -/
theorem wadd_mod_one (a : Nat) : wadd (a % W) 1 = (a + 1) % W := by
  unfold wadd
  rw [Nat.mod_add_mod]

/-- For a capacity dividing `W`, the stored (wrapped) counter addresses the
same slot as the ghost counter. -/
theorem mod_W_mod_cap {cap : Nat} (hdvd : cap ∣ W) (a : Nat) :
    a % W % cap = a % cap :=
  Nat.mod_mod_of_dvd a hdvd

/-- Two ghost indices within one capacity window address the same slot only
if they are equal. -/
theorem window_mod_inj (cap a b : Nat)
    (hab : a ≤ b) (hlt : b < a + cap) (h : a % cap = b % cap) : a = b := by
  have hmod : a ≡ b [MOD cap] := h
  have hdvd : cap ∣ b - a := (Nat.modEq_iff_dvd' hab).mp hmod
  have hz : b - a = 0 := Nat.eq_zero_of_dvd_of_lt hdvd (by omega)
  omega

/-- Under `Abs`, `head = tail` exactly when the queue is empty. -/
theorem abs_head_eq_tail {r : SpillRing T} {q : List T}
    (hcap : CapOK r.cap) (h : Abs r q) : (r.head = r.tail ↔ q = []) := by
  obtain ⟨H, hh, ht, hlen, _⟩ := h
  obtain ⟨_, _, hltW⟩ := hcap
  constructor
  · intro he
    have h1 : wsub r.tail r.head = q.length := by
      rw [ht, hh]; exact wsub_window H q.length (by omega)
    rw [he] at h1
    have h2 : wsub r.tail r.tail = 0 := by
      rw [ht]
      have := wsub_window (H + q.length) 0 (by omega)
      simpa using this
    have : q.length = 0 := by omega
    exact List.eq_nil_of_length_eq_zero this
  · intro he
    subst he
    simp only [List.length_nil, Nat.add_zero] at ht
    rw [hh, ht]

theorem pop_cap (r : SpillRing T) : (r.pop).1.cap = r.cap := by
  unfold SpillRing.pop; split <;> rfl

theorem push_cap (r : SpillRing T) (x : T) : (r.push x).1.cap = r.cap := by
  simp only [SpillRing.push]; split <;> rfl

theorem tryPush_cap (r : SpillRing T) (x : T) : (r.tryPush x).1.cap = r.cap := by
  unfold SpillRing.tryPush; split <;> rfl

/-- Under `Abs`, `len` returns the queue length. -/
theorem abs_len {r : SpillRing T} {q : List T}
    (hcap : CapOK r.cap) (h : Abs r q) : r.len = q.length := by
  obtain ⟨H, hh, ht, hlen, _⟩ := h
  obtain ⟨_, _, hltW⟩ := hcap
  unfold SpillRing.len
  rw [ht, hh]
  exact wsub_window H q.length (by omega)

/-! ### Simulation lemmas: each operation against the FIFO abstraction -/

/-- `pop` on an empty ring: `head == tail`, so it returns `None` and leaves
the state untouched. -/
theorem pop_abs_nil {r : SpillRing T} (h : Abs r []) : r.pop = (r, none) := by
  obtain ⟨H, hh, ht, _, _⟩ := h
  have he : r.head = r.tail := by rw [hh, ht]; simp
  unfold SpillRing.pop
  rw [if_pos he]

/-- `pop` on a non-empty ring returns the oldest element and represents the
remaining queue. -/
theorem pop_abs_cons {r : SpillRing T} {y : T} {q : List T}
    (hcap : CapOK r.cap) (h : Abs r (y :: q)) :
    (r.pop).2 = some y ∧ Abs (r.pop).1 q := by
  have hne : r.head ≠ r.tail := by
    intro he
    have := (abs_head_eq_tail hcap h).mp he
    simp at this
  obtain ⟨H, hh, ht, hlen, hbuf⟩ := h
  obtain ⟨hpos, hdvd, hltW⟩ := hcap
  unfold SpillRing.pop
  rw [if_neg hne]
  refine ⟨?_, ?_⟩
  · have h0 := hbuf ⟨0, by simp⟩
    simp only [Nat.add_zero] at h0
    simp only [hh, mod_W_mod_cap hdvd]
    simpa using h0
  · refine ⟨H + 1, ?_, ?_, ?_, ?_⟩
    · simp only [hh]
      exact wadd_mod_one H
    · simp only [ht, List.length_cons]
      ring_nf
    · simp only [List.length_cons] at hlen
      exact Nat.le_of_succ_le hlen
    · intro i
      have hi := hbuf ⟨i.val + 1, by simp [Nat.succ_lt_succ i.isLt]⟩
      simp only [List.get_cons_succ] at hi
      have harith : H + 1 + i.val = H + (i.val + 1) := by omega
      simpa [harith] using hi

/-- `push` on a non-full ring: no eviction, the item becomes the newest
element. -/
theorem push_abs_not_full {r : SpillRing T} {q : List T}
    (hcap : CapOK r.cap) (h : Abs r q) (hlt : q.length < r.cap) (x : T) :
    (r.push x).2 = none ∧ Abs (r.push x).1 (q ++ [x]) := by
  have hlen' : r.len = q.length := abs_len hcap h
  obtain ⟨H, hh, ht, hlen, hbuf⟩ := h
  obtain ⟨hpos, hdvd, hltW⟩ := hcap
  have hcond : ¬ r.cap ≤ wsub r.tail r.head := by
    unfold SpillRing.len at hlen'
    omega
  simp only [SpillRing.push, if_neg hcond]
  refine ⟨trivial, H, hh, ?_, ?_, ?_⟩
  · show wadd r.tail 1 = (H + (q ++ [x]).length) % W
    rw [ht, wadd_mod_one]
    simp only [List.length_append, List.length_cons, List.length_nil]
    ring_nf
  · simp only [List.length_append, List.length_cons, List.length_nil]
    omega
  · intro i
    show (if (H + i.val) % r.cap = r.tail % r.cap then some x
          else r.buffer ((H + i.val) % r.cap)) = some ((q ++ [x]).get i)
    have hslot : r.tail % r.cap = (H + q.length) % r.cap := by
      rw [ht]; exact mod_W_mod_cap hdvd (H + q.length)
    have hi := i.isLt
    simp only [List.length_append, List.length_cons, List.length_nil] at hi
    by_cases hc : i.val = q.length
    · have : (H + i.val) % r.cap = r.tail % r.cap := by rw [hslot, hc]
      rw [if_pos this]
      have : (q ++ [x]).get i = x := by
        rw [List.get_eq_getElem]
        simp only [hc, List.getElem_concat_length]
      rw [this]
    · have hilt : i.val < q.length := by omega
      have hne : (H + i.val) % r.cap ≠ r.tail % r.cap := by
        rw [hslot]
        intro hmod
        have := window_mod_inj r.cap (H + i.val)
          (H + q.length) (by omega) (by omega) hmod
        omega
      rw [if_neg hne]
      have hb := hbuf ⟨i.val, hilt⟩
      have hg : (q ++ [x]).get i = q.get ⟨i.val, hilt⟩ := by
        rw [List.get_eq_getElem, List.get_eq_getElem]
        exact List.getElem_append_left hilt
      rw [hg]
      exact hb

/-- `push` on a full ring: the oldest element is evicted to the sink (read
from the slot at `head % N` before the new item is written), and the item
becomes the newest element of the still-full ring. -/
theorem push_abs_full {r : SpillRing T} {q : List T}
    (hcap : CapOK r.cap) (h : Abs r q) (hfull : q.length = r.cap) (x : T) :
    (r.push x).2 = q.head? ∧ Abs (r.push x).1 (q.tail ++ [x]) := by
  have hlen' : r.len = q.length := abs_len hcap h
  obtain ⟨H, hh, ht, hlen, hbuf⟩ := h
  obtain ⟨hpos, hdvd, hltW⟩ := hcap
  have hqpos : 0 < q.length := by omega
  have hcond : r.cap ≤ wsub r.tail r.head := by
    unfold SpillRing.len at hlen'
    omega
  simp only [SpillRing.push, if_pos hcond]
  refine ⟨?_, H + 1, ?_, ?_, ?_, ?_⟩
  · show r.buffer (r.head % r.cap) = q.head?
    have h0 := hbuf ⟨0, hqpos⟩
    simp only [Nat.add_zero] at h0
    rw [hh, mod_W_mod_cap hdvd, h0]
    cases q with
    | nil => simp at hqpos
    | cons y q' => rfl
  · show wadd r.head 1 = (H + 1) % W
    rw [hh, wadd_mod_one]
  · show wadd r.tail 1 = (H + 1 + (q.tail ++ [x]).length) % W
    rw [ht, wadd_mod_one]
    have : (q.tail ++ [x]).length = q.length := by
      simp only [List.length_append, List.length_tail, List.length_cons,
        List.length_nil]
      omega
    rw [this]
    ring_nf
  · simp only [List.length_append, List.length_tail, List.length_cons,
      List.length_nil]
    omega
  · intro i
    show (if (H + 1 + i.val) % r.cap = r.tail % r.cap then some x
          else r.buffer ((H + 1 + i.val) % r.cap)) = some ((q.tail ++ [x]).get i)
    have hslot : r.tail % r.cap = (H + q.length) % r.cap := by
      rw [ht]; exact mod_W_mod_cap hdvd (H + q.length)
    have hi := i.isLt
    simp only [List.length_append, List.length_tail, List.length_cons,
      List.length_nil] at hi
    have htl : q.tail.length = q.length - 1 := List.length_tail q
    by_cases hc : i.val = q.length - 1
    · have heq : (H + 1 + i.val) % r.cap = r.tail % r.cap := by
        rw [hslot, hc]
        congr 1
        omega
      rw [if_pos heq]
      have hgx : (q.tail ++ [x]).get i = x := by
        rw [List.get_eq_getElem]
        have : i.val = q.tail.length := by omega
        simp only [this, List.getElem_concat_length]
      rw [hgx]
    · have hilt : i.val < q.length - 1 := by omega
      have hne : (H + 1 + i.val) % r.cap ≠ r.tail % r.cap := by
        rw [hslot]
        intro hmod
        have := window_mod_inj r.cap (H + 1 + i.val)
          (H + q.length) (by omega) (by omega) hmod
        omega
      rw [if_neg hne]
      have hb := hbuf ⟨i.val + 1, by omega⟩
      have harith : H + (i.val + 1) = H + 1 + i.val := by omega
      rw [harith] at hb
      rw [hb]
      congr 1
      have hget : (q.tail ++ [x]).get i = q.tail.get ⟨i.val, by omega⟩ := by
        rw [List.get_eq_getElem, List.get_eq_getElem]
        exact List.getElem_append_left (by omega)
      rw [hget, List.get_tail q i.val (by omega)]

/-- `try_push` on a full ring returns `Err(item)` and does not touch the
state (and, structurally, never touches the sink). -/
theorem tryPush_abs_full {r : SpillRing T} {q : List T}
    (hcap : CapOK r.cap) (h : Abs r q) (hfull : q.length = r.cap) (x : T) :
    r.tryPush x = (r, some x) := by
  have hlen' : r.len = q.length := abs_len hcap h
  have hcond : r.cap ≤ wsub r.tail r.head := by
    unfold SpillRing.len at hlen'
    omega
  unfold SpillRing.tryPush
  rw [if_pos hcond]

/-- On a ring that is not full, `try_push` writes the same state `push`
would (no eviction branch is involved). -/
theorem tryPush_eq_push_of_not_full {r : SpillRing T} (x : T)
    (hcond : ¬ r.cap ≤ wsub r.tail r.head) :
    r.tryPush x = ((r.push x).1, none) := by
  simp only [SpillRing.tryPush, SpillRing.push, if_neg hcond]

/-- `try_push` on a non-full ring succeeds, appends the item as newest,
keeps `head`, and advances `tail` by one (wrapping). -/
theorem tryPush_abs_not_full {r : SpillRing T} {q : List T}
    (hcap : CapOK r.cap) (h : Abs r q) (hlt : q.length < r.cap) (x : T) :
    (r.tryPush x).2 = none ∧ Abs (r.tryPush x).1 (q ++ [x]) ∧
      (r.tryPush x).1.head = r.head ∧ (r.tryPush x).1.tail = wadd r.tail 1 := by
  have hlen' : r.len = q.length := abs_len hcap h
  have hcond : ¬ r.cap ≤ wsub r.tail r.head := by
    unfold SpillRing.len at hlen'
    omega
  have heq := tryPush_eq_push_of_not_full x hcond
  have hpush := push_abs_not_full hcap h hlt x
  refine ⟨by rw [heq], by rw [heq]; exact hpush.2, ?_, ?_⟩
  · rw [heq]
    simp only [SpillRing.push, if_neg hcond]
  · rw [heq]
    simp only [SpillRing.push, if_neg hcond]

theorem popLoop_cap : ∀ (n : Nat) (r : SpillRing T),
    (SpillRing.popLoop n r).1.cap = r.cap := by
  intro n
  induction n with
  | zero => intro r; rfl
  | succ m ih =>
    intro r
    simp only [SpillRing.popLoop]
    cases hp : (r.pop).2 with
    | none => simp only [hp]; exact pop_cap r
    | some x =>
      simp only [hp]
      rw [ih (r.pop).1, pop_cap]

/-- The `pop` loop with fuel `q.length` pops exactly the represented queue,
oldest first, and leaves the ring empty. -/
theorem popLoop_abs : ∀ (q : List T) (r : SpillRing T), CapOK r.cap → Abs r q →
    (SpillRing.popLoop q.length r).2 = q ∧
      Abs (SpillRing.popLoop q.length r).1 [] := by
  intro q
  induction q with
  | nil => intro r _ h; exact ⟨rfl, h⟩
  | cons y q' ih =>
    intro r hcap h
    obtain ⟨hpop2, habs'⟩ := pop_abs_cons hcap h
    have hcap' : CapOK (r.pop).1.cap := by rw [pop_cap]; exact hcap
    obtain ⟨ih1, ih2⟩ := ih (r.pop).1 hcap' habs'
    simp only [List.length_cons, SpillRing.popLoop, hpop2]
    exact ⟨by rw [ih1], ih2⟩

/-- `flush` sends exactly the live elements (oldest first) to the sink and
leaves an empty ring of the same capacity. -/
theorem flush_abs {r : SpillRing T} {q : List T}
    (hcap : CapOK r.cap) (h : Abs r q) :
    (r.flush).2 = q ∧ Abs (r.flush).1 [] ∧ (r.flush).1.cap = r.cap := by
  have hl : r.len = q.length := abs_len hcap h
  unfold SpillRing.flush
  rw [hl]
  obtain ⟨h1, h2⟩ := popLoop_abs q r hcap h
  exact ⟨h1, h2, popLoop_cap q.length r⟩

/-- `flush` on an empty ring is a no-op: nothing is popped, the state is
returned unchanged. -/
theorem flush_empty {r : SpillRing T} (hcap : CapOK r.cap) (h : Abs r []) :
    r.flush = (r, []) := by
  have hl : r.len = 0 := abs_len hcap h
  unfold SpillRing.flush
  rw [hl]
  rfl

/-! ### Operation sequences (single-owner mode) -/

/-- The single-owner operations named by the spec's invariant. -/
inductive Op (T : Type) where
  | push (x : T)
  | tryPush (x : T)
  | pop
  | peek
  | flushOp
  | clearDrop

/-- One operation applied to the ring state (`peek` borrows and does not
mutate). -/
def step (r : SpillRing T) : Op T → SpillRing T
  | .push x => (r.push x).1
  | .tryPush x => (r.tryPush x).1
  | .pop => (r.pop).1
  | .peek => r
  | .flushOp => (r.flush).1
  | .clearDrop => r.clearDrop

/-- Run a sequence of operations. -/
def runOps (r : SpillRing T) : List (Op T) → SpillRing T
  | [] => r
  | op :: rest => runOps (step r op) rest

theorem step_cap (r : SpillRing T) (op : Op T) : (step r op).cap = r.cap := by
  cases op with
  | push x => exact push_cap r x
  | tryPush x => exact tryPush_cap r x
  | pop => exact pop_cap r
  | peek => rfl
  | flushOp => exact popLoop_cap r.len r
  | clearDrop => exact popLoop_cap r.len r

/-- Every operation preserves representability by some FIFO queue. -/
theorem step_abs {r : SpillRing T} (hcap : CapOK r.cap)
    (h : ∃ q, Abs r q) (op : Op T) : ∃ q', Abs (step r op) q' := by
  obtain ⟨q, habs⟩ := h
  cases op with
  | push x =>
    rcases Nat.lt_or_ge q.length r.cap with hlt | hge
    · exact ⟨q ++ [x], (push_abs_not_full hcap habs hlt x).2⟩
    · have hfull : q.length = r.cap :=
        Nat.le_antisymm (by obtain ⟨_, _, _, hlen, _⟩ := habs; exact hlen) hge
      exact ⟨q.tail ++ [x], (push_abs_full hcap habs hfull x).2⟩
  | tryPush x =>
    rcases Nat.lt_or_ge q.length r.cap with hlt | hge
    · exact ⟨q ++ [x], (tryPush_abs_not_full hcap habs hlt x).2.1⟩
    · have hfull : q.length = r.cap :=
        Nat.le_antisymm (by obtain ⟨_, _, _, hlen, _⟩ := habs; exact hlen) hge
      have := tryPush_abs_full hcap habs hfull x
      refine ⟨q, ?_⟩
      show Abs (r.tryPush x).1 q
      rw [this]
      exact habs
  | pop =>
    cases q with
    | nil =>
      refine ⟨[], ?_⟩
      show Abs (r.pop).1 []
      rw [pop_abs_nil habs]
      exact habs
    | cons y q' => exact ⟨q', (pop_abs_cons hcap habs).2⟩
  | peek => exact ⟨q, habs⟩
  | flushOp => exact ⟨[], (flush_abs hcap habs).2.1⟩
  | clearDrop => exact ⟨[], (flush_abs hcap habs).2.1⟩

/-- Representability is preserved along any operation sequence, and the
capacity never changes. -/
theorem runOps_abs : ∀ (ops : List (Op T)) (r : SpillRing T),
    CapOK r.cap → (∃ q, Abs r q) →
    (∃ q, Abs (runOps r ops) q) ∧ (runOps r ops).cap = r.cap := by
  intro ops
  induction ops with
  | nil => intro r _ h; exact ⟨h, rfl⟩
  | cons op rest ih =>
    intro r hcap h
    have hcap' : CapOK (step r op).cap := by rw [step_cap]; exact hcap
    obtain ⟨ih1, ih2⟩ := ih (step r op) hcap' (step_abs hcap h op)
    exact ⟨ih1, by rw [show runOps r (op :: rest) = runOps (step r op) rest from rfl,
      ih2, step_cap]⟩

/-- A freshly constructed ring represents the empty queue. -/
theorem new_abs (T : Type) (cap : Nat) : Abs (SpillRing.new T cap) [] := by
  refine ⟨0, by simp [SpillRing.new], by simp [SpillRing.new], by simp, ?_⟩
  intro i
  exact absurd i.isLt (by simp)

/-! ### Push/pop interleavings and the FIFO specification model -/

/-- A push or a pop, for interleaving runs. -/
inductive PushPop (T : Type) where
  | push (x : T)
  | pop

/-- Run an interleaving of `push`/`pop` on the ring, collecting the values
returned by the successful pops, in order. -/
def runPP (r : SpillRing T) : List (PushPop T) → SpillRing T × List T
  | [] => (r, [])
  | .push x :: rest => runPP (r.push x).1 rest
  | .pop :: rest =>
    let p := r.pop
    let res := runPP p.1 rest
    (res.1, p.2.toList ++ res.2)

/-- Specification-side FIFO queue (from the spec's words, for the
refinement statement): `push` appends as newest, evicting the oldest first
when the queue is at capacity. -/
def specFifoPush (cap : Nat) (q : List T) (x : T) : List T :=
  if q.length = cap then q.tail ++ [x] else q ++ [x]

/-- Specification-side run (from the spec's words): `pop` removes and
returns the oldest live element; the second component is the sequence of
popped values. -/
def specFifoRun (cap : Nat) (q : List T) : List (PushPop T) → List T × List T
  | [] => (q, [])
  | .push x :: rest => specFifoRun cap (specFifoPush cap q x) rest
  | .pop :: rest =>
    match q with
    | [] => specFifoRun cap [] rest
    | y :: q' =>
      let res := specFifoRun cap q' rest
      (res.1, y :: res.2)

/-- The ring's pops coincide with the FIFO specification model's pops, for
every interleaving, from any represented state. -/
theorem runPP_refines : ∀ (ops : List (PushPop T)) (r : SpillRing T)
    (q : List T), CapOK r.cap → Abs r q →
    (runPP r ops).2 = (specFifoRun r.cap q ops).2 := by
  intro ops
  induction ops with
  | nil => intro r q _ _; rfl
  | cons op rest ih =>
    intro r q hcap habs
    cases op with
    | push x =>
      show (runPP (r.push x).1 rest).2 = (specFifoRun r.cap (specFifoPush r.cap q x) rest).2
      have hcap' : CapOK (r.push x).1.cap := by rw [push_cap]; exact hcap
      rcases Nat.lt_or_ge q.length r.cap with hlt | hge
      · have habs' := (push_abs_not_full hcap habs hlt x).2
        have hne : q.length ≠ r.cap := by omega
        rw [specFifoPush, if_neg hne]
        have := ih (r.push x).1 (q ++ [x]) hcap' habs'
        rwa [push_cap] at this
      · have hfull : q.length = r.cap :=
          Nat.le_antisymm (by obtain ⟨_, _, _, hlen, _⟩ := habs; exact hlen) hge
        have habs' := (push_abs_full hcap habs hfull x).2
        rw [specFifoPush, if_pos hfull]
        have := ih (r.push x).1 (q.tail ++ [x]) hcap' habs'
        rwa [push_cap] at this
    | pop =>
      cases q with
      | nil =>
        have hp := pop_abs_nil habs
        show ((runPP (r.pop).1 rest).1, (r.pop).2.toList ++ (runPP (r.pop).1 rest).2).2
          = (specFifoRun r.cap [] rest).2
        rw [hp]
        simpa using ih r [] hcap habs
      | cons y q' =>
        obtain ⟨hp2, habs'⟩ := pop_abs_cons hcap habs
        have hcap' : CapOK (r.pop).1.cap := by rw [pop_cap]; exact hcap
        show ((runPP (r.pop).1 rest).1, (r.pop).2.toList ++ (runPP (r.pop).1 rest).2).2
          = ((specFifoRun r.cap q' rest).1, y :: (specFifoRun r.cap q' rest).2).2
        have := ih (r.pop).1 q' hcap' habs'
        rw [pop_cap] at this
        simp only [hp2, Option.toList_some, List.singleton_append, this]

/-! ### Ring chaining (a ring as another ring's sink) -/

/-- One push into ring A whose sink is ring B whose sink is a collect sink:
A's eviction (if any) is pushed into B synchronously; B's eviction (if any)
is appended to the terminal collect sink. -/
def chainStep (s : SpillRing Nat × SpillRing Nat × List Nat) (x : Nat) :
    SpillRing Nat × SpillRing Nat × List Nat :=
  let pA := s.1.push x
  match pA.2 with
  | none => (pA.1, s.2.1, s.2.2)
  | some e =>
    let pB := s.2.1.push e
    match pB.2 with
    | none => (pA.1, pB.1, s.2.2)
    | some e2 => (pA.1, pB.1, s.2.2 ++ [e2])

/-- Push a list of values through the chained setup. -/
def chainRun (s : SpillRing Nat × SpillRing Nat × List Nat) (xs : List Nat) :
    SpillRing Nat × SpillRing Nat × List Nat :=
  xs.foldl chainStep s

/-! ### The claims -/

/-- C1: in single-owner mode, every sequence of push / try_push / pop /
peek / flush / clear_drop operations on a ring of capacity `N` keeps the
invariant `0 ≤ tail − head ≤ N` (witnessed by ghost counters `H` and
`H + L` with `L ≤ N` that the stored `head`/`tail` are the mod-`W`
reductions of), with `len() = tail − head`, `is_full()` true exactly when
`len = N`, and `is_empty()` true exactly when `head = tail` (i.e. `L = 0`). -/
theorem c1_single_owner_invariant (T : Type) (cap : Nat) (hcap : CapOK cap)
    (ops : List (Op T)) :
    ∃ H L, (runOps (SpillRing.new T cap) ops).head = H % W ∧
      (runOps (SpillRing.new T cap) ops).tail = (H + L) % W ∧
      L ≤ cap ∧
      (runOps (SpillRing.new T cap) ops).len = L ∧
      ((runOps (SpillRing.new T cap) ops).isFull = true ↔ L = cap) ∧
      ((runOps (SpillRing.new T cap) ops).isEmpty = true ↔ L = 0) := by
  have hcap0 : CapOK (SpillRing.new T cap).cap := hcap
  obtain ⟨⟨q, habs⟩, hc⟩ :=
    runOps_abs ops (SpillRing.new T cap) hcap0 ⟨[], new_abs T cap⟩
  set r := runOps (SpillRing.new T cap) ops with hr
  have hrcap : r.cap = cap := hc
  have hrcapOK : CapOK r.cap := by rw [hrcap]; exact hcap
  have hlenq : r.len = q.length := abs_len hrcapOK habs
  have hempty := abs_head_eq_tail hrcapOK habs
  have habs' := habs
  obtain ⟨H, hh, ht, hlen, _⟩ := habs'
  refine ⟨H, q.length, hh, ht, by omega, hlenq, ?_, ?_⟩
  · unfold SpillRing.isFull
    rw [decide_eq_true_iff]
    unfold SpillRing.len at hlenq
    omega
  · unfold SpillRing.isEmpty
    rw [beq_iff_eq, hempty]
    constructor
    · intro he; rw [he]; rfl
    · intro h0; exact List.eq_nil_of_length_eq_zero h0

/-- C1 witness at capacity 4 with a concrete operation sequence. -/
theorem c1_single_owner_invariant_witness :
    ∃ H L, (runOps (SpillRing.new Nat 4)
        [Op.push 1, Op.push 2, Op.pop, Op.tryPush 3, Op.peek]).head = H % W ∧
      (runOps (SpillRing.new Nat 4)
        [Op.push 1, Op.push 2, Op.pop, Op.tryPush 3, Op.peek]).tail = (H + L) % W ∧
      L ≤ 4 ∧
      (runOps (SpillRing.new Nat 4)
        [Op.push 1, Op.push 2, Op.pop, Op.tryPush 3, Op.peek]).len = L ∧
      ((runOps (SpillRing.new Nat 4)
        [Op.push 1, Op.push 2, Op.pop, Op.tryPush 3, Op.peek]).isFull = true ↔ L = 4) ∧
      ((runOps (SpillRing.new Nat 4)
        [Op.push 1, Op.push 2, Op.pop, Op.tryPush 3, Op.peek]).isEmpty = true ↔ L = 0) :=
  c1_single_owner_invariant Nat 4
    ⟨by norm_num, ⟨2 ^ 62, by norm_num [W]⟩, by norm_num [W]⟩
    [Op.push 1, Op.push 2, Op.pop, Op.tryPush 3, Op.peek]

/-- C2: pushing `1..6` into a collecting-sink ring of capacity 4 sends
exactly `1` then `2` to the sink and leaves the ring holding
`[3, 4, 5, 6]` oldest-to-newest; in general, `push` on a full ring sends
the element at `head` to the sink (reading it before the new item is
written), advances `head` by one, and appends the item as newest. -/
theorem c2_full_push_evicts_oldest :
    ((pushAll (SpillRing.new Nat 4) [1, 2, 3, 4, 5, 6]).2 = [1, 2] ∧
      ((pushAll (SpillRing.new Nat 4) [1, 2, 3, 4, 5, 6]).1.flush).2
        = [3, 4, 5, 6]) ∧
    (∀ (T : Type) (r : SpillRing T) (q : List T) (x : T),
      CapOK r.cap → Abs r q → q.length = r.cap →
      (r.push x).2 = q.head? ∧ (r.push x).1.head = wadd r.head 1 ∧
        Abs (r.push x).1 (q.tail ++ [x])) := by
  refine ⟨⟨by decide, by decide⟩, ?_⟩
  intro T r q x hcap habs hfull
  obtain ⟨hev, habs'⟩ := push_abs_full hcap habs hfull x
  refine ⟨hev, ?_, habs'⟩
  have hlen' : r.len = q.length := abs_len hcap habs
  have hcond : r.cap ≤ wsub r.tail r.head := by
    unfold SpillRing.len at hlen'
    omega
  simp only [SpillRing.push, if_pos hcond]

/-- C2 witness: a concrete full push (capacity 1 holding `[7]`) evicts
`7`. -/
theorem c2_full_push_evicts_oldest_witness :
    ((pushAll (SpillRing.new Nat 1) [7]).1.push 9).2 = some 7 :=
  (c2_full_push_evicts_oldest.2 Nat (pushAll (SpillRing.new Nat 1) [7]).1
    [7] 9 ⟨by decide, one_dvd W, by decide⟩
    ⟨0, by decide, by decide, by decide, by decide⟩ (by decide)).1

/-- C3: in single-owner mode, for any interleaving of push and pop from a
fresh ring, the sequence of values returned by successful pops equals the
pops of the FIFO specification model, in which each pop removes and
returns the oldest live element — so pops are in strict FIFO order
matching push order. -/
theorem c3_pop_fifo_order (T : Type) (cap : Nat) (hcap : CapOK cap)
    (ops : List (PushPop T)) :
    (runPP (SpillRing.new T cap) ops).2 = (specFifoRun cap [] ops).2 :=
  runPP_refines ops (SpillRing.new T cap) [] hcap (new_abs T cap)

/-- C3 witness: a concrete interleaving on capacity 2 where a push evicts,
checked against the FIFO model and evaluated. -/
theorem c3_pop_fifo_order_witness :
    (runPP (SpillRing.new Nat 2)
      [PushPop.push 1, PushPop.push 2, PushPop.push 3,
        PushPop.pop, PushPop.pop, PushPop.pop]).2
      = (specFifoRun 2 []
        [PushPop.push 1, PushPop.push 2, PushPop.push 3,
          PushPop.pop, PushPop.pop, PushPop.pop]).2 ∧
    (runPP (SpillRing.new Nat 2)
      [PushPop.push 1, PushPop.push 2, PushPop.push 3,
        PushPop.pop, PushPop.pop, PushPop.pop]).2 = [2, 3] :=
  ⟨c3_pop_fifo_order Nat 2
    ⟨by norm_num, ⟨2 ^ 63, by norm_num [W]⟩, by norm_num [W]⟩
    [PushPop.push 1, PushPop.push 2, PushPop.push 3,
      PushPop.pop, PushPop.pop, PushPop.pop], by decide⟩

/-- C4: `flush` on a ring holding `q` sends exactly `q` to the sink in
oldest-to-newest order, returns `q.length`, and leaves the ring empty;
flushing again sends nothing, returns 0, and leaves the state untouched. -/
theorem c4_flush_all_then_noop (T : Type) (r : SpillRing T) (q : List T)
    (hcap : CapOK r.cap) (habs : Abs r q) :
    (r.flush).2 = q ∧ (r.flush).2.length = q.length ∧
      Abs (r.flush).1 [] ∧ (r.flush).1.flush = ((r.flush).1, []) := by
  obtain ⟨h1, h2, h3⟩ := flush_abs hcap habs
  have hcap' : CapOK (r.flush).1.cap := by rw [h3]; exact hcap
  exact ⟨h1, by rw [h1], h2, flush_empty hcap' h2⟩

/-- C4 witness: flushing a capacity-4 ring holding `[1, 2, 3]`. -/
theorem c4_flush_all_then_noop_witness :
    ((pushAll (SpillRing.new Nat 4) [1, 2, 3]).1.flush).2 = [1, 2, 3] ∧
      ((pushAll (SpillRing.new Nat 4) [1, 2, 3]).1.flush).1.flush
        = (((pushAll (SpillRing.new Nat 4) [1, 2, 3]).1.flush).1, []) :=
  ⟨(c4_flush_all_then_noop Nat (pushAll (SpillRing.new Nat 4) [1, 2, 3]).1
      [1, 2, 3] ⟨by decide, ⟨2 ^ 62, by decide⟩, by decide⟩
      ⟨0, by decide, by decide, by decide, by decide⟩).1,
   (c4_flush_all_then_noop Nat (pushAll (SpillRing.new Nat 4) [1, 2, 3]).1
      [1, 2, 3] ⟨by decide, ⟨2 ^ 62, by decide⟩, by decide⟩
      ⟨0, by decide, by decide, by decide, by decide⟩).2.2.2⟩

/-- C5: `try_push` on a full ring returns the rejected item and leaves the
entire state (head, tail, every slot) unchanged, with no eviction and no
sink interaction; on a non-full ring it succeeds (`none` error), appends
the item as newest, keeps `head`, and advances `tail` by exactly one. -/
theorem c5_try_push_backpressure (T : Type) (r : SpillRing T) (q : List T)
    (x : T) (hcap : CapOK r.cap) (habs : Abs r q) :
    (q.length = r.cap → r.tryPush x = (r, some x)) ∧
    (q.length < r.cap → (r.tryPush x).2 = none ∧
      Abs (r.tryPush x).1 (q ++ [x]) ∧
      (r.tryPush x).1.head = r.head ∧ (r.tryPush x).1.tail = wadd r.tail 1) :=
  ⟨fun hfull => tryPush_abs_full hcap habs hfull x,
   fun hlt => tryPush_abs_not_full hcap habs hlt x⟩

/-- C5 witness: `try_push` on a concrete full ring (capacity 1 holding
`[7]`) returns the rejected item and changes nothing. -/
theorem c5_try_push_backpressure_witness :
    (pushAll (SpillRing.new Nat 1) [7]).1.tryPush 9
      = ((pushAll (SpillRing.new Nat 1) [7]).1, some 9) :=
  (c5_try_push_backpressure Nat (pushAll (SpillRing.new Nat 1) [7]).1 [7] 9
    ⟨by decide, one_dvd W, by decide⟩
    ⟨0, by decide, by decide, by decide, by decide⟩).1 (by decide)

/-- C6: when a ring is dropped, the sink observes exactly one `send` per
remaining live element, oldest-to-newest, followed by the sink's own
`flush()` — no live element is silently dropped. -/
theorem c6_drop_flushes_then_flushes_sink (T : Type) (r : SpillRing T)
    (q : List T) (hcap : CapOK r.cap) (habs : Abs r q) :
    dropRing r = q.map SinkEvent.send ++ [SinkEvent.flushEv] := by
  unfold SpillRing.dropRing
  rw [(flush_abs hcap habs).1]

/-- C6 witness: dropping a capacity-4 ring holding `[1, 2, 3]`. -/
theorem c6_drop_flushes_then_flushes_sink_witness :
    dropRing (pushAll (SpillRing.new Nat 4) [1, 2, 3]).1
      = [1, 2, 3].map SinkEvent.send ++ [SinkEvent.flushEv] :=
  c6_drop_flushes_then_flushes_sink Nat
    (pushAll (SpillRing.new Nat 4) [1, 2, 3]).1 [1, 2, 3]
    ⟨by decide, ⟨2 ^ 62, by decide⟩, by decide⟩
    ⟨0, by decide, by decide, by decide, by decide⟩

/-- C7: chaining ring A (capacity 2) into ring B (capacity 2) into a
collect sink: pushing `1..6` into A leaves A holding `[5, 6]`, B holding
`[3, 4]`, and the terminal sink `[1, 2]` — A's evictions become B's
pushes and B's evictions reach the terminal sink in order. -/
theorem c7_ring_chaining_cascade :
    ((chainRun (SpillRing.new Nat 2, SpillRing.new Nat 2, [])
        [1, 2, 3, 4, 5, 6]).1.flush).2 = [5, 6] ∧
    ((chainRun (SpillRing.new Nat 2, SpillRing.new Nat 2, [])
        [1, 2, 3, 4, 5, 6]).2.1.flush).2 = [3, 4] ∧
    (chainRun (SpillRing.new Nat 2, SpillRing.new Nat 2, [])
        [1, 2, 3, 4, 5, 6]).2.2 = [1, 2] := by
  refine ⟨by decide, by decide, by decide⟩

/-- The drained contents of a pointwise-represented list of rings. -/
theorem drain_map : ∀ (rs : List (SpillRing T)) (qs : List (List T)),
    List.Forall₂ (fun r q => CapOK r.cap ∧ Abs r q) rs qs →
    rs.map (fun r => (SpillRing.drain r).2) = qs := by
  intro rs qs h
  induction h with
  | nil => rfl
  | cons hrq _ ih =>
    simp only [List.map_cons, ih]
    congr 1
    exact (flush_abs hrq.1 hrq.2).1

/-- C8: `Consumer::drain(sink)` sends every remaining live element of
every collected ring to the target sink — rings in the exact order they
were added, oldest-to-newest within each ring — and then calls the target
sink's `flush()` exactly once, at the end; this holds for any number of
rings, including zero. -/
theorem c8_consumer_drain_order (T : Type) (c : Consumer T)
    (qs : List (List T))
    (h : List.Forall₂ (fun r q => CapOK r.cap ∧ Abs r q) c.rings qs) :
    (Consumer.drainC c).2
      = qs.flatten.map SinkEvent.send ++ [SinkEvent.flushEv] := by
  unfold Consumer.drainC
  rw [drain_map c.rings qs h]

/-- C8 witness: draining a consumer holding zero rings performs exactly
one target-sink `flush` and no sends. -/
theorem c8_consumer_drain_order_witness :
    (Consumer.drainC (⟨[]⟩ : Consumer Nat)).2 = [SinkEvent.flushEv] :=
  c8_consumer_drain_order Nat ⟨[]⟩ [] List.Forall₂.nil

/-- C9 counterexample: the first clone of a fresh `ProducerSink` draws id
`fetch_add(0) = 0` from the shared counter — the same identity `0` that
the original, un-cloned sink carries, so clone identities are not unique
with respect to the original. -/
theorem c9_counterexample_first_clone_id_collides :
    (@ProducerSink.cloneSink (List Nat)
        (ProducerSink.new (List Nat)).2).1.producer_id
      = (ProducerSink.new (List Nat)).1.producer_id := rfl

/-- As long as the wrapping `fetch_add` counter does not overflow
(`c + n ≤ W`), `n` successive clones from counter value `c` draw the ids
`c, c + 1, …, c + n − 1`. -/
theorem cloneIds_eq_range' (σ : Type) :
    ∀ (n c : Nat), c + n ≤ W → ProducerSink.cloneIds σ n c = List.range' c n := by
  intro n
  induction n with
  | zero => intro c _; rfl
  | succ m ih =>
    intro c hc
    rcases Nat.lt_or_ge (c + 1) W with hlt | hge
    · have hw : wadd c 1 = c + 1 := by
        unfold wadd
        exact Nat.mod_eq_of_lt hlt
      simp only [ProducerSink.cloneIds]
      rw [show (@ProducerSink.cloneSink σ c).2 = wadd c 1 from rfl, hw,
        ih (c + 1) (by omega)]
      rfl
    · have hm : m = 0 := by omega
      subst hm
      rfl

/-- C9 (amended): successive clones of a per-producer factory sink draw
monotonically increasing identities `0, 1, 2, …` from the shared counter —
unique among the clones for as long as the wrapping `fetch_add` counter
does not overflow (`n ≤ 2 ^ 64` clones) — while the original, un-cloned
sink itself also carries identity `0` (colliding with the first clone);
the inner sink is constructed via the factory only on the first `send`,
and `flush` before any `send` invokes nothing. -/
theorem c9_producer_sink_ids_and_lazy_init (σ T : Type)
    (factory : Nat → σ) (isend : σ → T → σ) (iflush : σ → σ)
    (n : Nat) (hn : n ≤ W) (x : T) :
    ProducerSink.cloneIds σ n (ProducerSink.new σ).2 = List.range n ∧
    (ProducerSink.new σ).1.producer_id = 0 ∧
    (ProducerSink.new σ).1.inner = none ∧
    (∀ s : ProducerSink σ, s.inner = none →
      ProducerSink.flushSink iflush s = (s, false)) ∧
    (∀ s : ProducerSink σ, s.inner = none →
      (ProducerSink.sendSink factory isend s x).inner
        = some (isend (factory s.producer_id) x)) := by
  refine ⟨?_, rfl, rfl, ?_, ?_⟩
  · rw [show (ProducerSink.new σ).2 = 0 from rfl,
      cloneIds_eq_range' σ n 0 (by omega), List.range_eq_range']
  · intro s hs
    unfold ProducerSink.flushSink
    rw [hs]
  · intro s hs
    unfold ProducerSink.sendSink
    rw [hs]

/-- C9 witness: three clones of a fresh sink get ids `[0, 1, 2]`, and a
`flush` before any `send` invokes no inner sink. -/
theorem c9_producer_sink_ids_and_lazy_init_witness :
    ProducerSink.cloneIds (List Nat) 3 (ProducerSink.new (List Nat)).2
      = List.range 3 ∧
    @ProducerSink.flushSink (List Nat) id (ProducerSink.new (List Nat)).1
      = ((ProducerSink.new (List Nat)).1, false) :=
  ⟨(c9_producer_sink_ids_and_lazy_init (List Nat) Nat (fun _ => [])
      (fun l t => l ++ [t]) id 3 (by decide) 5).1,
   (c9_producer_sink_ids_and_lazy_init (List Nat) Nat (fun _ => [])
      (fun l t => l ++ [t]) id 3 (by decide) 5).2.2.2.1
     (ProducerSink.new (List Nat)).1 rfl⟩

/-- C10: dropping a `Producer` that was never collected runs its ring's
destructor — its own sink observes one `send` per remaining live item,
oldest-to-newest, then a `flush` — while a consumer the producer was
never added to keeps its ring count unchanged (collecting an empty
producer list is the identity). -/
theorem c10_dropped_producer_flushes_own_sink (T : Type) (p : Producer T)
    (q : List T) (hcap : CapOK p.ring.cap) (habs : Abs p.ring q) :
    dropProducer p = q.map SinkEvent.send ++ [SinkEvent.flushEv] ∧
    (∀ c : Consumer T,
      Consumer.numProducers (collectProducers [] c)
        = Consumer.numProducers c) := by
  refine ⟨?_, fun c => rfl⟩
  unfold dropProducer SpillRing.dropRing
  rw [(flush_abs hcap habs).1]

/-- C10 witness: a dropped producer holding `[1, 2, 3]`. -/
theorem c10_dropped_producer_flushes_own_sink_witness :
    dropProducer ⟨(pushAll (SpillRing.new Nat 4) [1, 2, 3]).1⟩
      = [1, 2, 3].map SinkEvent.send ++ [SinkEvent.flushEv] :=
  (c10_dropped_producer_flushes_own_sink Nat
    ⟨(pushAll (SpillRing.new Nat 4) [1, 2, 3]).1⟩ [1, 2, 3]
    ⟨by decide, ⟨2 ^ 62, by decide⟩, by decide⟩
    ⟨0, by decide, by decide, by decide, by decide⟩).1

end Spill
